import Mathlib

/-!
Verification of the day-8 bytecode emulator and its single-mutation repair
search (`src/day-8/src/main.rs`).

The Rust code is embedded shallowly:

* `Instruction`, `Emulator`, `TerminationCriteria` mirror the Rust types;
  `i64` values are modelled by unbounded `Int` (no claim concerns integer
  wrap-around, and the arithmetic of every input considered stays far below
  the 64-bit range; the one place where the source checks a bound — the
  `i64` string parser — keeps its range check in the model).
* `Emulator.execute` models `Emulator::execute`; the Rust `panic!` on
  program-counter underflow is modelled by returning `none`.
* `run_program` models `run_program`; the `HashSet<usize>` of visited
  program counters is modelled by a `Finset ℕ`.  A `panic!` reached
  anywhere during the search aborts the whole process, hence the
  `Option` result: `none` models the panic.
* `baseline_loop` models the `while seen.insert(e.pc) { e.execute(...) }`
  loop of `main` (the "baseline" infinite-loop detector); indexing past the
  end of the instruction vector (`instructions[e.pc]`) panics in Rust and is
  modelled by the dedicated `outOfBounds` outcome.
* `Instruction.from_str` models the `FromStr` instance, including
  `splitn(2, char::is_whitespace)` and the `i64` string parser with its
  range check.  (Rust's `char::is_whitespace` is the Unicode White_Space
  predicate; the model uses `Char.isWhitespace`, which agrees with it on
  every character appearing in the claims.)
-/

/-- Mirrors the Rust `enum Instruction` (payloads are `i64`, modelled by `Int`). -/
inductive Instruction where
  | noOperation : Int → Instruction
  | accumulate : Int → Instruction
  | jump : Int → Instruction
deriving DecidableEq, Repr

/-- Mirrors `Instruction::try_mutate`: `NoOperation(v) ↦ Jump(v)`,
`Jump(v) ↦ NoOperation(v)`, `Accumulate(_) ↦ None`. -/
def Instruction.try_mutate : Instruction → Option Instruction
  | .noOperation value => some (.jump value)
  | .accumulate _ => none
  | .jump value => some (.noOperation value)

/-- Mirrors the Rust `struct Emulator { accumulator: i64, pc: usize }`. -/
structure Emulator where
  accumulator : Int
  pc : ℕ
deriving DecidableEq, Repr

/-- Mirrors `Emulator::new()`, i.e. `Default`: pc = 0, accumulator = 0. -/
def Emulator.new : Emulator := ⟨0, 0⟩

/-- Mirrors `Emulator::execute`.  The `Jump` arm computes
`new_pc = pc as i64 + rel - 1`, panics (`none`) when `new_pc < 0`, otherwise
stores `new_pc as usize`; all arms then add 1 to the program counter. -/
def Emulator.execute (e : Emulator) : Instruction → Option Emulator
  | .noOperation _ => some { e with pc := e.pc + 1 }
  | .accumulate value => some { accumulator := e.accumulator + value, pc := e.pc + 1 }
  | .jump rel =>
      let new_pc : Int := (e.pc : Int) + rel - 1
      if new_pc < 0 then none
      else some { e with pc := new_pc.toNat + 1 }

/-- Mirrors the Rust `enum TerminationCriteria`. -/
inductive TerminationCriteria where
  | infiniteLoop : TerminationCriteria
  | terminated : Emulator → TerminationCriteria
deriving DecidableEq, Repr

/-- The well-founded measure of the execution loops: the number of valid
program counters not yet in the visited set. -/
def pcMeasure (instructions : List Instruction) (hit : Finset ℕ) : ℕ :=
  instructions.length - (hit.filter (fun x => x < instructions.length)).card

/-- Inserting an unvisited in-range program counter into the visited set
strictly decreases `pcMeasure` (stated as a `def` of proof type so that the
recursive definitions below can already use it). -/
def pcMeasure_decr {pc : ℕ} {instructions : List Instruction} {hit : Finset ℕ}
    (hpc : pc < instructions.length) (hmem : pc ∉ hit) :
    pcMeasure instructions (insert pc hit) < pcMeasure instructions hit := by
  simp only [pcMeasure]
  have h1 : (insert pc hit).filter (fun x => x < instructions.length)
      = insert pc (hit.filter (fun x => x < instructions.length)) := by
    rw [Finset.filter_insert, if_pos hpc]
  have h2 : pc ∉ hit.filter (fun x => x < instructions.length) :=
    fun hc => hmem (Finset.mem_filter.mp hc).1
  have h4 : insert pc (hit.filter (fun x => x < instructions.length))
      ⊆ Finset.range instructions.length := by
    intro x hx
    rcases Finset.mem_insert.mp hx with h | h
    · exact h ▸ Finset.mem_range.mpr hpc
    · exact Finset.mem_range.mpr (Finset.mem_filter.mp h).2
  have h5 := Finset.card_le_card h4
  rw [Finset.card_range, Finset.card_insert_of_not_mem h2] at h5
  rw [h1, Finset.card_insert_of_not_mem h2]
  omega

/-- A successful indexed fetch means the program counter is in range
(a `def` of proof type, used by the termination proofs below). -/
def pc_lt_of_getElem? {instructions : List Instruction} {pc : ℕ} {i : Instruction}
    (hget : instructions[pc]? = some i) : pc < instructions.length :=
  (List.getElem?_eq_some.mp hget).1

/-- Mirrors `run_program`.  The `while instructions_hit.insert(emulator.pc)`
loop becomes recursion on the growing visited set; `instructions.get(pc)`
is `instructions[pc]?`; the speculative branch clones the emulator and the
visited set exactly as the Rust code does.  A panic anywhere (the
`Emulator::execute` underflow) aborts the whole run: `none`. -/
def run_program (emulator : Emulator) (instructions : List Instruction)
    (instructions_that_can_change : Int) (instructions_hit : Finset ℕ) :
    Option TerminationCriteria :=
  if hmem : emulator.pc ∈ instructions_hit then some TerminationCriteria.infiniteLoop
  else
    match hget : instructions[emulator.pc]? with
    | none => some (TerminationCriteria.terminated emulator)
    | some next_instruction =>
      -- fall-through of the loop body: execute the (unmutated) instruction
      -- and continue the loop with the enlarged visited set.
      let continued : Option TerminationCriteria :=
        match emulator.execute next_instruction with
        | none => none
        | some e1 =>
            run_program e1 instructions instructions_that_can_change
              (insert emulator.pc instructions_hit)
      match next_instruction.try_mutate with
      | none => continued
      | some mutated =>
        if instructions_that_can_change > 0 then
          match emulator.execute mutated with
          | none => none
          | some alternate_reality =>
            match run_program alternate_reality instructions
                (instructions_that_can_change - 1)
                (insert emulator.pc instructions_hit) with
            | none => none
            | some (TerminationCriteria.terminated e3) =>
                some (TerminationCriteria.terminated e3)
            | some TerminationCriteria.infiniteLoop => continued
        else continued
termination_by pcMeasure instructions instructions_hit
decreasing_by
  · exact pcMeasure_decr (pc_lt_of_getElem? hget) hmem
  · exact pcMeasure_decr (pc_lt_of_getElem? hget) hmem

/-- Outcome of the baseline loop in `main`: either the loop exits normally
(a program counter was revisited: the printed "first loop at PC" state), or
one of the two possible panics occurred. -/
inductive BaselineResult where
  | loopedAt : Emulator → BaselineResult
  | outOfBounds : Emulator → BaselineResult
  | panicked : Emulator → BaselineResult
deriving DecidableEq, Repr

/-- Mirrors the baseline driver of `main`:
`while seen.insert(e.pc) { e.execute(instructions[e.pc]); }`.
`instructions[e.pc]` panics on an out-of-range index (`outOfBounds`), and
`execute` can panic on program-counter underflow (`panicked`); on normal
exit the state at the revisited program counter is reported (`loopedAt`). -/
def baseline_loop (e : Emulator) (instructions : List Instruction)
    (seen : Finset ℕ) : BaselineResult :=
  if hmem : e.pc ∈ seen then BaselineResult.loopedAt e
  else
    match hget : instructions[e.pc]? with
    | none => BaselineResult.outOfBounds e
    | some i =>
      match e.execute i with
      | none => BaselineResult.panicked e
      | some e1 => baseline_loop e1 instructions (insert e.pc seen)
termination_by pcMeasure instructions seen
decreasing_by
  · exact pcMeasure_decr (pc_lt_of_getElem? hget) hmem

/-- `main` runs the baseline driver on a freshly loaded program with a fresh
emulator and a fresh `seen` set; running the whole of `main` twice on the
same instruction list performs these two independent runs. -/
def run_baseline_twice (instructions : List Instruction) :
    BaselineResult × BaselineResult :=
  (baseline_loop Emulator.new instructions ∅,
   baseline_loop Emulator.new instructions ∅)

/-- The sequence of program counters visited by a non-mutating execution,
ending with the program counter at which the run stops (the revisited pc,
the one-past-the-end pc, or the pc of a panicking jump).  This instruments
the step semantics shared by the baseline loop and by the unmutated paths
of `run_program`. -/
def visit_trace (e : Emulator) (instructions : List Instruction)
    (seen : Finset ℕ) : List ℕ :=
  if hmem : e.pc ∈ seen then [e.pc]
  else
    match hget : instructions[e.pc]? with
    | none => [e.pc]
    | some i =>
      match e.execute i with
      | none => [e.pc]
      | some e1 => e.pc :: visit_trace e1 instructions (insert e.pc seen)
termination_by pcMeasure instructions seen
decreasing_by
  · exact pcMeasure_decr (pc_lt_of_getElem? hget) hmem

/-- The largest number of instruction executions performed along any single
path (speculative or not) explored by `run_program` from the given state:
the recursion mirrors `run_program` arm for arm, counting one execution per
loop iteration and taking the maximum over the speculative branch and the
fall-through. -/
def search_path_bound (emulator : Emulator) (instructions : List Instruction)
    (instructions_that_can_change : Int) (instructions_hit : Finset ℕ) : ℕ :=
  if hmem : emulator.pc ∈ instructions_hit then 0
  else
    match hget : instructions[emulator.pc]? with
    | none => 0
    | some next_instruction =>
      let continued : ℕ :=
        match emulator.execute next_instruction with
        | none => 1
        | some e1 =>
            1 + search_path_bound e1 instructions instructions_that_can_change
              (insert emulator.pc instructions_hit)
      match next_instruction.try_mutate with
      | none => continued
      | some mutated =>
        if instructions_that_can_change > 0 then
          let speculative : ℕ :=
            match emulator.execute mutated with
            | none => 1
            | some alternate_reality =>
                1 + search_path_bound alternate_reality instructions
                  (instructions_that_can_change - 1)
                  (insert emulator.pc instructions_hit)
          max speculative continued
        else continued
termination_by pcMeasure instructions instructions_hit
decreasing_by
  · exact pcMeasure_decr (pc_lt_of_getElem? hget) hmem
  · exact pcMeasure_decr (pc_lt_of_getElem? hget) hmem

/-- Mirrors Rust `str::splitn(2, char::is_whitespace)` followed by the two
`next()` calls of `from_str`: the first component is the text before the
first whitespace character, the second is everything after it (`none` when
the string contains no whitespace at all).  `splitn` always yields at least
one (possibly empty) piece, so the "no operation found" error arm of the
source is unreachable and the first component is total. -/
def splitn2_whitespace : List Char → List Char × Option (List Char)
  | [] => ([], none)
  | c :: rest =>
    if c.isWhitespace then ([], some rest)
    else
      let (head, tail) := splitn2_whitespace rest
      (c :: head, tail)

/-- Mirrors Rust `i64::from_str` as invoked by `arg.parse()`: an optional
single leading `+` or `-`, then one or more ASCII digits, nothing else, and
the resulting value must fit in an `i64`. -/
def parse_i64 (s : List Char) : Option Int :=
  let signed : Int × List Char :=
    match s with
    | '+' :: rest => (1, rest)
    | '-' :: rest => (-1, rest)
    | _ => (1, s)
  let digits := signed.2
  if digits.isEmpty then none
  else if digits.all Char.isDigit then
    let mag : ℕ := digits.foldl (fun a c => a * 10 + (c.toNat - 48)) 0
    let val : Int := signed.1 * mag
    if -(2 ^ 63) ≤ val ∧ val < 2 ^ 63 then some val else none
  else none

/-- Mirrors `Instruction::from_str`: split the line in two at the first
whitespace character, dispatch on the (case-sensitive) mnemonic, parse the
argument as an `i64`.  Every `Err` of the source becomes `none`. -/
def Instruction.from_str (s : String) : Option Instruction :=
  match splitn2_whitespace s.toList with
  | (op, some arg) =>
    if op = "nop".toList then (parse_i64 arg).map Instruction.noOperation
    else if op = "acc".toList then (parse_i64 arg).map Instruction.accumulate
    else if op = "jmp".toList then (parse_i64 arg).map Instruction.jump
    else none
  | (_, none) => none

/-- The 9-instruction example program
`[nop+0, acc+1, jmp+4, acc+3, jmp-3, acc-99, acc+1, jmp-4, acc+6]`. -/
def example_program : List Instruction :=
  [.noOperation 0, .accumulate 1, .jump 4, .accumulate 3, .jump (-3),
   .accumulate (-99), .accumulate 1, .jump (-4), .accumulate 6]

/-- Index `k` of program `p` holds a mutable (jump/no-op) instruction whose
single mutation yields a program that, run unmutated (`run_program` with a
zero mutation budget) from a fresh emulator and empty visited set,
terminates. -/
def terminating_mutation (p : List Instruction) (k : ℕ) : Prop :=
  ∃ i m, p[k]? = some i ∧ i.try_mutate = some m ∧
    ∃ e, run_program Emulator.new (p.set k m) 0 ∅
      = some (TerminationCriteria.terminated e)

/-! ## Unfolding equations

The recursive functions above are defined by well-founded recursion, whose
automatically generated equations carry dependent matches; the lemmas in
this section restate them with plain `if`/`match`, one per arm, which is
what every later proof rewrites with. -/

theorem run_program_looped {e : Emulator} {p : List Instruction} {b : Int} {hit : Finset ℕ}
    (h : e.pc ∈ hit) : run_program e p b hit = some TerminationCriteria.infiniteLoop := by
  rw [run_program.eq_def, dif_pos h]

theorem run_program_term {e : Emulator} {p : List Instruction} {b : Int} {hit : Finset ℕ}
    (h : e.pc ∉ hit) (hg : p[e.pc]? = none) :
    run_program e p b hit = some (TerminationCriteria.terminated e) := by
  rw [run_program.eq_def, dif_neg h]
  split
  · rfl
  · simp_all

theorem run_program_step {e : Emulator} {p : List Instruction} {b : Int} {hit : Finset ℕ}
    {i : Instruction} (h : e.pc ∉ hit) (hg : p[e.pc]? = some i) :
    run_program e p b hit =
      (let continued : Option TerminationCriteria :=
        match e.execute i with
        | none => none
        | some e1 => run_program e1 p b (insert e.pc hit)
      match i.try_mutate with
      | none => continued
      | some mutated =>
        if b > 0 then
          match e.execute mutated with
          | none => none
          | some e2 =>
            match run_program e2 p (b - 1) (insert e.pc hit) with
            | none => none
            | some (TerminationCriteria.terminated e3) =>
                some (TerminationCriteria.terminated e3)
            | some TerminationCriteria.infiniteLoop => continued
        else continued) := by
  rw [run_program.eq_def, dif_neg h]
  split
  · simp_all
  · rename_i i2 hg2
    rw [hg2] at hg
    cases hg
    rfl

theorem run_program_eq (e : Emulator) (p : List Instruction) (b : Int) (hit : Finset ℕ) :
    run_program e p b hit =
      (if e.pc ∈ hit then some TerminationCriteria.infiniteLoop
      else
        match p[e.pc]? with
        | none => some (TerminationCriteria.terminated e)
        | some i =>
          let continued : Option TerminationCriteria :=
            match e.execute i with
            | none => none
            | some e1 => run_program e1 p b (insert e.pc hit)
          match i.try_mutate with
          | none => continued
          | some mutated =>
            if b > 0 then
              match e.execute mutated with
              | none => none
              | some e2 =>
                match run_program e2 p (b - 1) (insert e.pc hit) with
                | none => none
                | some (TerminationCriteria.terminated e3) =>
                    some (TerminationCriteria.terminated e3)
                | some TerminationCriteria.infiniteLoop => continued
            else continued) := by
  by_cases h : e.pc ∈ hit
  · rw [run_program_looped h, if_pos h]
  · rw [if_neg h]
    cases hg : p[e.pc]? with
    | none => rw [run_program_term h hg]
    | some i => rw [run_program_step h hg]

/-- With a zero mutation budget, `run_program` is the plain non-mutating
execution driver with termination detection. -/
theorem run_program_zero_eq (e : Emulator) (p : List Instruction) (hit : Finset ℕ) :
    run_program e p 0 hit =
      (if e.pc ∈ hit then some TerminationCriteria.infiniteLoop
      else
        match p[e.pc]? with
        | none => some (TerminationCriteria.terminated e)
        | some i =>
          match e.execute i with
          | none => none
          | some e1 => run_program e1 p 0 (insert e.pc hit)) := by
  rw [run_program_eq]
  by_cases h : e.pc ∈ hit
  · rw [if_pos h, if_pos h]
  · rw [if_neg h, if_neg h]
    cases hg : p[e.pc]? with
    | none => rfl
    | some i =>
      norm_num
      cases i.try_mutate <;> rfl

/-- Zero-budget step: executing the fetched instruction succeeds and the
loop continues. -/
theorem run_program_zero_step {e e1 : Emulator} {p : List Instruction} {hit : Finset ℕ}
    {i : Instruction} (h : e.pc ∉ hit) (hg : p[e.pc]? = some i)
    (hx : e.execute i = some e1) :
    run_program e p 0 hit = run_program e1 p 0 (insert e.pc hit) := by
  rw [run_program_zero_eq, if_neg h, hg]
  show (match e.execute i with
    | none => none
    | some e1 => run_program e1 p 0 (insert e.pc hit)) = _
  rw [hx]

/-- Zero-budget step: executing the fetched instruction panics. -/
theorem run_program_zero_panic {e : Emulator} {p : List Instruction} {hit : Finset ℕ}
    {i : Instruction} (h : e.pc ∉ hit) (hg : p[e.pc]? = some i)
    (hx : e.execute i = none) : run_program e p 0 hit = none := by
  rw [run_program_zero_eq, if_neg h, hg]
  show (match e.execute i with
    | none => none
    | some e1 => run_program e1 p 0 (insert e.pc hit)) = _
  rw [hx]

theorem baseline_loop_looped {e : Emulator} {instructions : List Instruction} {seen : Finset ℕ}
    (h : e.pc ∈ seen) : baseline_loop e instructions seen = BaselineResult.loopedAt e := by
  rw [baseline_loop.eq_def, dif_pos h]

theorem baseline_loop_oob {e : Emulator} {instructions : List Instruction} {seen : Finset ℕ}
    (h : e.pc ∉ seen) (hg : instructions[e.pc]? = none) :
    baseline_loop e instructions seen = BaselineResult.outOfBounds e := by
  rw [baseline_loop.eq_def, dif_neg h]
  split
  · rfl
  · simp_all

theorem baseline_loop_eq (e : Emulator) (instructions : List Instruction) (seen : Finset ℕ) :
    baseline_loop e instructions seen =
      (if e.pc ∈ seen then BaselineResult.loopedAt e
      else
        match instructions[e.pc]? with
        | none => BaselineResult.outOfBounds e
        | some i =>
          match e.execute i with
          | none => BaselineResult.panicked e
          | some e1 => baseline_loop e1 instructions (insert e.pc seen)) := by
  rw [baseline_loop.eq_def]
  by_cases h : e.pc ∈ seen
  · rw [dif_pos h, if_pos h]
  · rw [dif_neg h, if_neg h]
    split
    · rename_i hg
      rw [hg]
    · rename_i i hg
      rw [hg]

theorem visit_trace_eq (e : Emulator) (instructions : List Instruction) (seen : Finset ℕ) :
    visit_trace e instructions seen =
      (if e.pc ∈ seen then [e.pc]
      else
        match instructions[e.pc]? with
        | none => [e.pc]
        | some i =>
          match e.execute i with
          | none => [e.pc]
          | some e1 => e.pc :: visit_trace e1 instructions (insert e.pc seen)) := by
  rw [visit_trace.eq_def]
  by_cases h : e.pc ∈ seen
  · rw [dif_pos h, if_pos h]
  · rw [dif_neg h, if_neg h]
    split
    · rename_i hg
      rw [hg]
    · rename_i i hg
      rw [hg]

theorem search_path_bound_looped {e : Emulator} {p : List Instruction} {b : Int}
    {hit : Finset ℕ} (h : e.pc ∈ hit) : search_path_bound e p b hit = 0 := by
  rw [search_path_bound.eq_def, dif_pos h]

theorem search_path_bound_term {e : Emulator} {p : List Instruction} {b : Int}
    {hit : Finset ℕ} (h : e.pc ∉ hit) (hg : p[e.pc]? = none) :
    search_path_bound e p b hit = 0 := by
  rw [search_path_bound.eq_def, dif_neg h]
  split
  · rfl
  · simp_all

theorem search_path_bound_step {e : Emulator} {p : List Instruction} {b : Int}
    {hit : Finset ℕ} {i : Instruction} (h : e.pc ∉ hit) (hg : p[e.pc]? = some i) :
    search_path_bound e p b hit =
      (let continued : ℕ :=
        match e.execute i with
        | none => 1
        | some e1 => 1 + search_path_bound e1 p b (insert e.pc hit)
      match i.try_mutate with
      | none => continued
      | some mutated =>
        if b > 0 then
          let speculative : ℕ :=
            match e.execute mutated with
            | none => 1
            | some e2 => 1 + search_path_bound e2 p (b - 1) (insert e.pc hit)
          max speculative continued
        else continued) := by
  rw [search_path_bound.eq_def, dif_neg h]
  split
  · simp_all
  · rename_i i2 hg2
    rw [hg2] at hg
    cases hg
    rfl

/-! ## General lemmas about the search -/

/-- A visited program counter only becomes more visited: agreement of two
programs outside the visited set is preserved along the run.  Two programs
that agree at every not-yet-visited index produce identical non-mutating
runs. -/
theorem run_program_agree : ∀ (n : ℕ) (p q : List Instruction) (e : Emulator)
    (hit : Finset ℕ), pcMeasure p hit = n → (∀ j, j ∉ hit → p[j]? = q[j]?) →
    run_program e p 0 hit = run_program e q 0 hit := by
  intro n
  induction n using Nat.strong_induction_on with
  | _ n ih =>
    intro p q e hit hn hagree
    by_cases h : e.pc ∈ hit
    · rw [run_program_looped h, run_program_looped h]
    · have hg : p[e.pc]? = q[e.pc]? := hagree e.pc h
      cases hgp : p[e.pc]? with
      | none => rw [run_program_term h hgp, run_program_term h (hg ▸ hgp)]
      | some i =>
        have hgq : q[e.pc]? = some i := hg ▸ hgp
        cases hx : e.execute i with
        | none => rw [run_program_zero_panic h hgp hx, run_program_zero_panic h hgq hx]
        | some e1 =>
          rw [run_program_zero_step h hgp hx, run_program_zero_step h hgq hx]
          have hpc : e.pc < p.length := pc_lt_of_getElem? hgp
          have hdec := pcMeasure_decr hpc h
          refine ih (pcMeasure p (insert e.pc hit)) (by omega) p q e1 _ rfl ?_
          intro j hj
          exact hagree j (fun hc => hj (Finset.mem_insert_of_mem hc))

/-- Whenever `run_program` reports `Terminated`, the reported emulator's
program counter is past the end of the instruction list. -/
theorem run_program_terminated_pc : ∀ (n : ℕ) (p : List Instruction) (e : Emulator)
    (b : Int) (hit : Finset ℕ) (e3 : Emulator), pcMeasure p hit = n →
    run_program e p b hit = some (TerminationCriteria.terminated e3) →
    p.length ≤ e3.pc := by
  intro n
  induction n using Nat.strong_induction_on with
  | _ n ih =>
    intro p e b hit e3 hn hrun
    by_cases h : e.pc ∈ hit
    · rw [run_program_looped h] at hrun
      simp at hrun
    · cases hg : p[e.pc]? with
      | none =>
        rw [run_program_term h hg] at hrun
        have he : e = e3 := by
          simpa using hrun
        rw [← he]
        exact List.getElem?_eq_none_iff.mp hg
      | some i =>
        have hpc : e.pc < p.length := pc_lt_of_getElem? hg
        have hdec := pcMeasure_decr hpc h
        rw [run_program_step h hg] at hrun
        simp only at hrun
        have hcont : ∀ (hr : (match e.execute i with
            | none => none
            | some e1 => run_program e1 p b (insert e.pc hit))
              = some (TerminationCriteria.terminated e3)), p.length ≤ e3.pc := by
          intro hr
          cases hx : e.execute i with
          | none => rw [hx] at hr; cases hr
          | some e1 =>
            rw [hx] at hr
            exact ih (pcMeasure p (insert e.pc hit)) (by omega) p e1 b _ e3 rfl hr
        cases hm : i.try_mutate with
        | none =>
          simp only [hm] at hrun
          exact hcont hrun
        | some mutated =>
          simp only [hm] at hrun
          by_cases hb : b > 0
          · simp only [if_pos hb] at hrun
            cases hx2 : e.execute mutated with
            | none => simp [hx2] at hrun
            | some e2 =>
              simp only [hx2] at hrun
              cases hspec : run_program e2 p (b - 1) (insert e.pc hit) with
              | none => simp [hspec] at hrun
              | some tc =>
                simp only [hspec] at hrun
                cases tc with
                | infiniteLoop => exact hcont hrun
                | terminated e4 =>
                  have he : e4 = e3 := by simpa using hrun
                  exact ih (pcMeasure p (insert e.pc hit)) (by omega) p e2 (b - 1) _ e3 rfl
                    (he ▸ hspec)
          · simp only [if_neg hb] at hrun
            exact hcont hrun

/-- Every path explored by the search executes at most `pcMeasure`-many
instructions: each executed instruction puts a fresh in-range program
counter into the visited set first. -/
theorem search_path_bound_le_measure : ∀ (n : ℕ) (p : List Instruction) (e : Emulator)
    (b : Int) (hit : Finset ℕ), pcMeasure p hit = n →
    search_path_bound e p b hit ≤ pcMeasure p hit := by
  intro n
  induction n using Nat.strong_induction_on with
  | _ n ih =>
    intro p e b hit hn
    by_cases h : e.pc ∈ hit
    · rw [search_path_bound_looped h]
      omega
    · cases hg : p[e.pc]? with
      | none =>
        rw [search_path_bound_term h hg]
        omega
      | some i =>
        have hpc : e.pc < p.length := pc_lt_of_getElem? hg
        have hdec := pcMeasure_decr hpc h
        rw [search_path_bound_step h hg]
        have hcont : (match e.execute i with
            | none => 1
            | some e1 => 1 + search_path_bound e1 p b (insert e.pc hit))
              ≤ pcMeasure p hit := by
          cases hx : e.execute i with
          | none =>
            show (1 : ℕ) ≤ pcMeasure p hit
            omega
          | some e1 =>
            show 1 + search_path_bound e1 p b (insert e.pc hit) ≤ pcMeasure p hit
            have := ih (pcMeasure p (insert e.pc hit)) (by omega) p e1 b _ rfl
            omega
        cases hm : i.try_mutate with
        | none =>
          simp only [hm]
          exact hcont
        | some mutated =>
          simp only [hm]
          by_cases hb : b > 0
          · simp only [if_pos hb]
            have hspec : (match e.execute mutated with
                | none => 1
                | some e2 => 1 + search_path_bound e2 p (b - 1) (insert e.pc hit))
                  ≤ pcMeasure p hit := by
              cases hx2 : e.execute mutated with
              | none =>
                show (1 : ℕ) ≤ pcMeasure p hit
                omega
              | some e2 =>
                show 1 + search_path_bound e2 p (b - 1) (insert e.pc hit) ≤ pcMeasure p hit
                have := ih (pcMeasure p (insert e.pc hit)) (by omega) p e2 (b - 1) _ rfl
                omega
            exact max_le hspec hcont
          · simp only [if_neg hb]
            exact hcont

/-- Soundness of the repair search: whenever `run_program` reports
`Terminated`, there is a set `S` of at most `budget`-many positions, none
previously visited, and a program `q` obtained from `p` by swapping exactly
the instructions at the positions in `S` with their mutation partners, such
that the plain non-mutating run of `q` from the same state reports the same
final emulator. -/
theorem run_program_sound : ∀ (n : ℕ) (p : List Instruction) (e : Emulator) (b : Int)
    (hit : Finset ℕ) (e3 : Emulator), pcMeasure p hit = n →
    run_program e p b hit = some (TerminationCriteria.terminated e3) →
    ∃ (S : Finset ℕ) (q : List Instruction),
      S.card ≤ b.toNat ∧
      (∀ j ∈ S, j ∉ hit ∧ ∃ i m, p[j]? = some i ∧ i.try_mutate = some m ∧ q[j]? = some m) ∧
      (∀ j ∉ S, q[j]? = p[j]?) ∧
      run_program e q 0 hit = some (TerminationCriteria.terminated e3) := by
  intro n
  induction n using Nat.strong_induction_on with
  | _ n ih =>
    intro p e b hit e3 hn hrun
    by_cases h : e.pc ∈ hit
    · rw [run_program_looped h] at hrun
      simp at hrun
    · cases hg : p[e.pc]? with
      | none =>
        rw [run_program_term h hg] at hrun
        have he : e = e3 := by simpa using hrun
        subst he
        refine ⟨∅, p, Nat.zero_le _, by simp, fun j hj => rfl, ?_⟩
        exact run_program_term h hg
      | some i =>
        have hpc : e.pc < p.length := pc_lt_of_getElem? hg
        have hdec := pcMeasure_decr hpc h
        rw [run_program_step h hg] at hrun
        simp only at hrun
        have hcont : (match e.execute i with
            | none => none
            | some e1 => run_program e1 p b (insert e.pc hit))
              = some (TerminationCriteria.terminated e3) →
            ∃ (S : Finset ℕ) (q : List Instruction),
              S.card ≤ b.toNat ∧
              (∀ j ∈ S, j ∉ hit ∧ ∃ i m, p[j]? = some i ∧ i.try_mutate = some m ∧
                q[j]? = some m) ∧
              (∀ j ∉ S, q[j]? = p[j]?) ∧
              run_program e q 0 hit = some (TerminationCriteria.terminated e3) := by
          intro hr
          cases hx : e.execute i with
          | none => rw [hx] at hr; cases hr
          | some e1 =>
            rw [hx] at hr
            obtain ⟨S, q, hcard, hmut, hagree, hq⟩ :=
              ih (pcMeasure p (insert e.pc hit)) (by omega) p e1 b _ e3 rfl hr
            have hpcS : e.pc ∉ S := fun hc => (hmut e.pc hc).1 (Finset.mem_insert_self _ _)
            refine ⟨S, q, hcard, ?_, hagree, ?_⟩
            · intro j hj
              obtain ⟨hjhit, rest⟩ := hmut j hj
              exact ⟨fun hc => hjhit (Finset.mem_insert_of_mem hc), rest⟩
            · have hgq : q[e.pc]? = some i := by rw [hagree e.pc hpcS]; exact hg
              rw [run_program_zero_step h hgq hx]
              exact hq
        cases hm : i.try_mutate with
        | none =>
          simp only [hm] at hrun
          exact hcont hrun
        | some mutated =>
          simp only [hm] at hrun
          by_cases hb : b > 0
          · simp only [if_pos hb] at hrun
            cases hx2 : e.execute mutated with
            | none => simp [hx2] at hrun
            | some e2 =>
              simp only [hx2] at hrun
              cases hspec : run_program e2 p (b - 1) (insert e.pc hit) with
              | none => simp [hspec] at hrun
              | some tc =>
                simp only [hspec] at hrun
                cases tc with
                | infiniteLoop => exact hcont hrun
                | terminated e4 =>
                  have he : e4 = e3 := by simpa using hrun
                  subst he
                  obtain ⟨S2, q2, hcard2, hmut2, hagree2, hq2⟩ :=
                    ih (pcMeasure p (insert e.pc hit)) (by omega) p e2 (b - 1) _ e4 rfl hspec
                  have hpcS2 : e.pc ∉ S2 :=
                    fun hc => (hmut2 e.pc hc).1 (Finset.mem_insert_self _ _)
                  have hgq2 : q2[e.pc]? = some i := by rw [hagree2 e.pc hpcS2]; exact hg
                  have hpcq2 : e.pc < q2.length := pc_lt_of_getElem? hgq2
                  have hgset : (q2.set e.pc mutated)[e.pc]? = some mutated := by
                    rw [List.getElem?_set]
                    simp [hpcq2]
                  refine ⟨insert e.pc S2, q2.set e.pc mutated, ?_, ?_, ?_, ?_⟩
                  · rw [Finset.card_insert_of_not_mem hpcS2]
                    omega
                  · intro j hj
                    rcases Finset.mem_insert.mp hj with rfl | hj2
                    · exact ⟨h, i, mutated, hg, hm, hgset⟩
                    · obtain ⟨hjhit, i2, m2, hpj, hmj, hqj⟩ := hmut2 j hj2
                      have hjne : e.pc ≠ j := fun hc => hpcS2 (hc ▸ hj2)
                      refine ⟨fun hc => hjhit (Finset.mem_insert_of_mem hc), i2, m2, hpj,
                        hmj, ?_⟩
                      rw [List.getElem?_set_ne hjne]
                      exact hqj
                  · intro j hj
                    have hjne : e.pc ≠ j := fun hc => hj (hc ▸ Finset.mem_insert_self _ _)
                    have hjS2 : j ∉ S2 := fun hc => hj (Finset.mem_insert_of_mem hc)
                    rw [List.getElem?_set_ne hjne]
                    exact hagree2 j hjS2
                  · rw [run_program_zero_step h hgset hx2]
                    refine Eq.trans (run_program_agree
                      (pcMeasure (q2.set e.pc mutated) (insert e.pc hit))
                      (q2.set e.pc mutated) q2 e2 _ rfl ?_) hq2
                    intro j hj
                    have hjne : e.pc ≠ j := fun hc => hj (hc ▸ Finset.mem_insert_self _ _)
                    exact List.getElem?_set_ne hjne
          · simp only [if_neg hb] at hrun
            exact hcont hrun

/-- Completeness of the repair search: if some program `q`, obtained from
`p` by swapping the instructions at a set `S` of at-most-`budget`-many
unvisited positions with their mutation partners, terminates under the
plain non-mutating run, then the search on `p` — provided it does not
panic — reports `Terminated` (possibly via a different fix found
earlier). -/
theorem run_program_complete : ∀ (n : ℕ) (p : List Instruction) (e : Emulator) (b : Int)
    (hit : Finset ℕ) (S : Finset ℕ) (q : List Instruction) (e3 : Emulator),
    pcMeasure p hit = n →
    run_program e p b hit ≠ none →
    S.card ≤ b.toNat →
    (∀ j ∈ S, j ∉ hit ∧ ∃ i m, p[j]? = some i ∧ i.try_mutate = some m ∧ q[j]? = some m) →
    (∀ j ∉ S, q[j]? = p[j]?) →
    run_program e q 0 hit = some (TerminationCriteria.terminated e3) →
    ∃ e4, run_program e p b hit = some (TerminationCriteria.terminated e4) := by
  intro n
  induction n using Nat.strong_induction_on with
  | _ n ih =>
    intro p e b hit S q e3 hn hnp hcard hS hagree hqrun
    by_cases h : e.pc ∈ hit
    · rw [run_program_looped h] at hqrun
      simp at hqrun
    · cases hgq : q[e.pc]? with
      | none =>
        have hpcS : e.pc ∉ S := by
          intro hc
          obtain ⟨-, i, m, -, -, hqj⟩ := hS e.pc hc
          rw [hqj] at hgq
          cases hgq
        have hgp : p[e.pc]? = none := by rw [← hagree e.pc hpcS]; exact hgq
        exact ⟨e, run_program_term h hgp⟩
      | some i2 =>
        by_cases hpcS : e.pc ∈ S
        · obtain ⟨-, i, m, hgp, hmi, hqm⟩ := hS e.pc hpcS
          rw [hqm] at hgq
          have him : i2 = m := (Option.some.inj hgq).symm
          subst him
          have hpc : e.pc < p.length := pc_lt_of_getElem? hgp
          have hdec := pcMeasure_decr hpc h
          have hbpos : b > 0 := by
            have h1 : 0 < S.card := Finset.card_pos.mpr ⟨e.pc, hpcS⟩
            omega
          cases hx2 : e.execute i2 with
          | none =>
            rw [run_program_zero_panic h hqm hx2] at hqrun
            cases hqrun
          | some e2 =>
            rw [run_program_zero_step h hqm hx2] at hqrun
            have hnospec : run_program e2 p (b - 1) (insert e.pc hit) ≠ none := by
              intro hcon
              apply hnp
              rw [run_program_step h hgp]
              simp only [hmi, if_pos hbpos, hx2, hcon]
            have hpcq : e.pc < q.length := pc_lt_of_getElem? hqm
            have hcards : (S.erase e.pc).card ≤ (b - 1).toNat := by
              rw [Finset.card_erase_of_mem hpcS]
              omega
            have hmuts : ∀ j ∈ S.erase e.pc, j ∉ insert e.pc hit ∧ ∃ ij mj,
                p[j]? = some ij ∧ ij.try_mutate = some mj ∧
                (q.set e.pc i)[j]? = some mj := by
              intro j hj
              obtain ⟨hjne, hjS⟩ := Finset.mem_erase.mp hj
              obtain ⟨hjhit, ij, mj, hpj, hmj, hqj⟩ := hS j hjS
              refine ⟨?_, ij, mj, hpj, hmj, ?_⟩
              · intro hc
                rcases Finset.mem_insert.mp hc with hc1 | hc2
                · exact hjne hc1
                · exact hjhit hc2
              · rw [List.getElem?_set_ne (fun hc => hjne hc.symm)]
                exact hqj
            have hagr : ∀ j ∉ S.erase e.pc, (q.set e.pc i)[j]? = p[j]? := by
              intro j hj
              by_cases hje : j = e.pc
              · subst hje
                rw [List.getElem?_set]
                simp [hpcq, hgp]
              · have hjS : j ∉ S := by
                  intro hc
                  exact hj (Finset.mem_erase.mpr ⟨hje, hc⟩)
                rw [List.getElem?_set_ne (fun hc => hje hc.symm)]
                exact hagree j hjS
            have hqrun2 : run_program e2 (q.set e.pc i) 0 (insert e.pc hit)
                = some (TerminationCriteria.terminated e3) := by
              refine Eq.trans (run_program_agree (pcMeasure (q.set e.pc i) (insert e.pc hit))
                (q.set e.pc i) q e2 _ rfl ?_) hqrun
              intro j hj
              have hjne : e.pc ≠ j := fun hc => hj (hc ▸ Finset.mem_insert_self _ _)
              exact List.getElem?_set_ne hjne
            obtain ⟨e4, hres⟩ := ih (pcMeasure p (insert e.pc hit)) (by omega) p e2 (b - 1)
              (insert e.pc hit) (S.erase e.pc) (q.set e.pc i) e3 rfl hnospec hcards hmuts
              hagr hqrun2
            refine ⟨e4, ?_⟩
            rw [run_program_step h hgp]
            simp only [hmi, if_pos hbpos, hx2, hres]
        · have hgp : p[e.pc]? = some i2 := by rw [← hagree e.pc hpcS]; exact hgq
          have hpc : e.pc < p.length := pc_lt_of_getElem? hgp
          have hdec := pcMeasure_decr hpc h
          have hSins : ∀ j ∈ S, j ∉ insert e.pc hit ∧ ∃ i m, p[j]? = some i ∧
              i.try_mutate = some m ∧ q[j]? = some m := by
            intro j hj
            obtain ⟨hjhit, rest⟩ := hS j hj
            refine ⟨?_, rest⟩
            intro hc
            rcases Finset.mem_insert.mp hc with hc1 | hc2
            · exact hpcS (hc1 ▸ hj)
            · exact hjhit hc2
          cases hx : e.execute i2 with
          | none =>
            rw [run_program_zero_panic h hgq hx] at hqrun
            cases hqrun
          | some e1 =>
            rw [run_program_zero_step h hgq hx] at hqrun
            cases hm : i2.try_mutate with
            | none =>
              have hcont_ne : run_program e1 p b (insert e.pc hit) ≠ none := by
                intro hcon
                apply hnp
                rw [run_program_step h hgp]
                simp only [hm, hx, hcon]
              obtain ⟨e4, hres⟩ := ih (pcMeasure p (insert e.pc hit)) (by omega) p e1 b
                (insert e.pc hit) S q e3 rfl hcont_ne hcard hSins hagree hqrun
              refine ⟨e4, ?_⟩
              rw [run_program_step h hgp]
              simp only [hm, hx, hres]
            | some mutated =>
              by_cases hb : b > 0
              · cases hx2 : e.execute mutated with
                | none =>
                  exfalso
                  apply hnp
                  rw [run_program_step h hgp]
                  simp only [hm, if_pos hb, hx2]
                | some e2 =>
                  cases hspec : run_program e2 p (b - 1) (insert e.pc hit) with
                  | none =>
                    exfalso
                    apply hnp
                    rw [run_program_step h hgp]
                    simp only [hm, if_pos hb, hx2, hspec]
                  | some tc =>
                    cases tc with
                    | terminated e5 =>
                      refine ⟨e5, ?_⟩
                      rw [run_program_step h hgp]
                      simp only [hm, if_pos hb, hx2, hspec]
                    | infiniteLoop =>
                      have hcont_ne : run_program e1 p b (insert e.pc hit) ≠ none := by
                        intro hcon
                        apply hnp
                        rw [run_program_step h hgp]
                        simp only [hm, if_pos hb, hx2, hspec, hx, hcon]
                      obtain ⟨e4, hres⟩ := ih (pcMeasure p (insert e.pc hit)) (by omega) p e1 b
                        (insert e.pc hit) S q e3 rfl hcont_ne hcard hSins hagree hqrun
                      refine ⟨e4, ?_⟩
                      rw [run_program_step h hgp]
                      simp only [hm, if_pos hb, hx2, hspec, hx, hres]
              · have hcont_ne : run_program e1 p b (insert e.pc hit) ≠ none := by
                  intro hcon
                  apply hnp
                  rw [run_program_step h hgp]
                  simp only [hm, if_neg hb, hx, hcon]
                obtain ⟨e4, hres⟩ := ih (pcMeasure p (insert e.pc hit)) (by omega) p e1 b
                  (insert e.pc hit) S q e3 rfl hcont_ne hcard hSins hagree hqrun
                refine ⟨e4, ?_⟩
                rw [run_program_step h hgp]
                simp only [hm, if_neg hb, hx, hres]

/-- Specialisation of soundness to the top-level call of `main`: a
`Terminated` answer of the budget-1 search means either the unmutated
program already terminates, or some position carries a terminating
mutation. -/
theorem run_program_budget_one_sound {p : List Instruction} {e3 : Emulator}
    (h : run_program Emulator.new p 1 ∅ = some (TerminationCriteria.terminated e3)) :
    run_program Emulator.new p 0 ∅ = some (TerminationCriteria.terminated e3) ∨
      ∃ k, terminating_mutation p k := by
  obtain ⟨S, q, hcard, hmut, hagree, hq⟩ :=
    run_program_sound (pcMeasure p ∅) p Emulator.new 1 ∅ e3 rfl h
  rcases S.eq_empty_or_nonempty with rfl | ⟨k, hk⟩
  · left
    have hqp : q = p := List.ext_getElem? (fun j => hagree j (Finset.not_mem_empty j))
    rw [← hqp]
    exact hq
  · right
    have hc1 : S.card ≤ 1 := by simpa using hcard
    have hS1 : S = {k} := by
      apply Finset.eq_singleton_iff_unique_mem.mpr
      exact ⟨hk, fun x hx => Finset.card_le_one.mp hc1 x hx k hk⟩
    subst hS1
    obtain ⟨-, i, m, hpk, hmk, hqk⟩ := hmut k (Finset.mem_singleton_self k)
    have hqset : q = p.set k m := by
      apply List.ext_getElem?
      intro j
      by_cases hj : j = k
      · subst hj
        rw [hqk, List.getElem?_set]
        simp [pc_lt_of_getElem? hpk]
      · rw [List.getElem?_set_ne (fun hc => hj hc.symm)]
        exact hagree j (by simp [hj])
    exact ⟨k, i, m, hpk, hmk, e3, by rw [← hqset]; exact hq⟩

/-- Specialisation of completeness to the top-level call of `main`: a
terminating mutation at any position makes the budget-1 search report
`Terminated`, provided the search does not panic. -/
theorem run_program_budget_one_complete {p : List Instruction} {k : ℕ}
    (hk : terminating_mutation p k)
    (hnp : run_program Emulator.new p 1 ∅ ≠ none) :
    ∃ e4, run_program Emulator.new p 1 ∅ = some (TerminationCriteria.terminated e4) := by
  obtain ⟨i, m, hpk, hmk, e3, hrun⟩ := hk
  have hklt : k < p.length := pc_lt_of_getElem? hpk
  have hcards : ({k} : Finset ℕ).card ≤ (1 : Int).toNat := by simp
  have hmuts : ∀ j ∈ ({k} : Finset ℕ), j ∉ (∅ : Finset ℕ) ∧ ∃ ij mj,
      p[j]? = some ij ∧ ij.try_mutate = some mj ∧ (p.set k m)[j]? = some mj := by
    intro j hj
    rw [Finset.mem_singleton] at hj
    subst hj
    refine ⟨Finset.not_mem_empty j, i, m, hpk, hmk, ?_⟩
    rw [List.getElem?_set]
    simp [hklt]
  have hagr : ∀ j ∉ ({k} : Finset ℕ), (p.set k m)[j]? = p[j]? := by
    intro j hj
    rw [Finset.mem_singleton] at hj
    exact List.getElem?_set_ne (fun hc => hj hc.symm)
  exact run_program_complete (pcMeasure p ∅) p Emulator.new 1 ∅ {k} (p.set k m) e3 rfl
    hnp hcards hmuts hagr hrun

/-! ## Claims -/

/-- Claim C3, amended.  The claim as stated fails on the code in two ways
(see the counterexample): the search can panic before reaching the
terminating mutation, and a program whose unmutated run already terminates
yields `Terminated`, not `InfiniteLoop`, even with zero terminating
mutations.  Amended: for every program whose budget-1 search from a fresh
emulator does not panic, (1) if exactly one index carries a terminating
single mutation, the search reports `Terminated`; (2) if no index carries a
terminating single mutation and the unmutated run does not terminate, the
search reports `InfiniteLoop`. -/
theorem claim_C3_amended (p : List Instruction)
    (hnp : run_program Emulator.new p 1 ∅ ≠ none) :
    ((∃! k, terminating_mutation p k) →
      ∃ e, run_program Emulator.new p 1 ∅ = some (TerminationCriteria.terminated e)) ∧
    ((∀ k, ¬ terminating_mutation p k) →
      (∀ e, run_program Emulator.new p 0 ∅ ≠ some (TerminationCriteria.terminated e)) →
      run_program Emulator.new p 1 ∅ = some TerminationCriteria.infiniteLoop) := by
  constructor
  · intro hexu
    obtain ⟨k, hk, -⟩ := hexu
    exact run_program_budget_one_complete hk hnp
  · intro hnone hbase
    cases hr : run_program Emulator.new p 1 ∅ with
    | none => exact absurd hr hnp
    | some tc =>
      cases tc with
      | infiniteLoop => rfl
      | terminated e3 =>
        rcases run_program_budget_one_sound hr with hb | ⟨k, hk⟩
        · exact absurd hb (hbase e3)
        · exact absurd hk (hnone k)

/-- Counterexample to claim C3 as stated.  First half: the program
`[nop+0, jmp+0]` has exactly one terminating single mutation (index 1,
`jmp+0 ↦ nop+0`), yet the budget-1 search never reports `Terminated` — it
panics while speculatively executing `jmp+0` at pc 0.  Second half: the
program `[acc+1]` has zero terminating single mutations, yet the budget-1
search reports `Terminated`, not `InfiniteLoop`. -/
theorem claim_C3_counterexample :
    ((∃! k, terminating_mutation [Instruction.noOperation 0, Instruction.jump 0] k) ∧
      ∀ e, run_program Emulator.new [Instruction.noOperation 0, Instruction.jump 0] 1 ∅
        ≠ some (TerminationCriteria.terminated e)) ∧
    ((∀ k, ¬ terminating_mutation [Instruction.accumulate 1] k) ∧
      run_program Emulator.new [Instruction.accumulate 1] 1 ∅
        = some (TerminationCriteria.terminated ⟨1, 1⟩)) := by
  refine ⟨⟨⟨1, ⟨Instruction.jump 0, Instruction.noOperation 0, rfl, rfl, ⟨0, 2⟩, ?_⟩, ?_⟩,
    ?_⟩, ?_, ?_⟩
  · simp [run_program_zero_eq, List.set, Emulator.execute, Emulator.new]
  · intro j hj
    obtain ⟨i, m, hgk, hmk, e, hrun⟩ := hj
    match j with
    | 0 =>
      injection hgk with hi
      subst hi
      injection hmk with hm
      subst hm
      simp [run_program_zero_eq, List.set, Emulator.execute, Emulator.new] at hrun
    | 1 => rfl
    | (j + 2) => simp at hgk
  · intro e hrun
    simp [run_program_eq, Emulator.execute, Instruction.try_mutate, Emulator.new] at hrun
  · intro k hk
    obtain ⟨i, m, hgk, hmk, e, hrun⟩ := hk
    match k with
    | 0 =>
      injection hgk with hi
      subst hi
      simp [Instruction.try_mutate] at hmk
    | (k + 1) => simp at hgk
  · simp [run_program_eq, Emulator.execute, Instruction.try_mutate, Emulator.new]

/-- Witness for the amended claim C3 at a concrete input: the program
`[acc+1, jmp+0]` loops unmutated, its only terminating single mutation is
at index 1, the search does not panic, and the amended claim yields a
`Terminated` report. -/
theorem claim_C3_witness :
    ∃ e, run_program Emulator.new [Instruction.accumulate 1, Instruction.jump 0] 1 ∅
      = some (TerminationCriteria.terminated e) := by
  have hnp : run_program Emulator.new [Instruction.accumulate 1, Instruction.jump 0] 1 ∅
      ≠ none := by
    simp [run_program_eq, Emulator.execute, Instruction.try_mutate, Emulator.new]
  refine (claim_C3_amended [Instruction.accumulate 1, Instruction.jump 0] hnp).1
    ⟨1, ⟨Instruction.jump 0, Instruction.noOperation 0, rfl, rfl, ⟨1, 2⟩, ?_⟩, ?_⟩
  · simp [run_program_zero_eq, List.set, Emulator.execute, Emulator.new]
  · intro j hj
    obtain ⟨i, m, hgk, hmk, e, hrun⟩ := hj
    match j with
    | 0 =>
      injection hgk with hi
      subst hi
      simp [Instruction.try_mutate] at hmk
    | 1 => rfl
    | (j + 2) => simp at hgk

/-- Claim C1 (a code bug): on the 9-instruction example program the
budget-1 search does not return `Terminated` with accumulator 8 — it
panics ("Program Counter Underflow") at its very first speculative branch,
which mutates the `nop+0` at pc 0 into `jmp+0` and computes the
intermediate program counter `0 + 0 - 1 = -1`.  The fix the claim expects
is real: the repaired program (index 7 mutated from `jmp-4` to `nop-4`)
does run unmutated through pcs 0,1,2,6,7,8,9 off the end with accumulator
8, which is what the search would report were it not for the panic. -/
theorem claim_C1_search_panics_on_example :
    run_program Emulator.new example_program 1 ∅ = none ∧
    run_program Emulator.new (example_program.set 7 (Instruction.noOperation (-4))) 0 ∅
      = some (TerminationCriteria.terminated ⟨8, 9⟩) ∧
    visit_trace Emulator.new (example_program.set 7 (Instruction.noOperation (-4))) ∅
      = [0, 1, 2, 6, 7, 8, 9] ∧
    example_program[7]? = some (Instruction.jump (-4)) ∧
    (Instruction.jump (-4)).try_mutate = some (Instruction.noOperation (-4)) := by
  refine ⟨?_, ?_, ?_, rfl, rfl⟩
  · simp [run_program_eq, example_program, Emulator.execute, Instruction.try_mutate,
      Emulator.new]
  · simp [run_program_zero_eq, example_program, List.set, Emulator.execute, Emulator.new]
  · simp [visit_trace_eq, example_program, List.set, Emulator.execute, Emulator.new]

/-- Claim C2 (a code bug): `Emulator::execute` on `Jump(offset)` panics
exactly when `pc + offset ≤ 0`, not exactly when `pc + offset < 0` as the
claim states: the guard is evaluated on the intermediate value
`pc + offset - 1`, so a jump whose resulting program counter is exactly 0
(non-negative, hence expected to succeed with pc = 0) also aborts.  When
`pc + offset > 0` it does succeed with program counter `pc + offset` and
unchanged accumulator. -/
theorem claim_C2_jump_underflow_boundary :
    Emulator.execute ⟨0, 0⟩ (Instruction.jump 0) = none ∧
    (∀ (e : Emulator) (off : Int), e.execute (Instruction.jump off) =
      if (e.pc : Int) + off ≤ 0 then none
      else some ⟨e.accumulator, ((e.pc : Int) + off).toNat⟩) := by
  refine ⟨by decide, ?_⟩
  intro e off
  cases e with
  | mk acc pc =>
    simp only [Emulator.execute]
    by_cases h : (pc : Int) + off ≤ 0
    · rw [if_pos (by omega : (pc : Int) + off - 1 < 0), if_pos h]
    · rw [if_neg (by omega : ¬((pc : Int) + off - 1 < 0)), if_neg h]
      have harith : ((pc : Int) + off - 1).toNat + 1 = ((pc : Int) + off).toNat := by
        omega
      rw [harith]

/-- Claim C4: on the example program the baseline driver of `main` visits
pcs 0,1,2,6,7,3,4 and stops at the second visit of pc 1 — before executing
the instruction there — with accumulator 5. -/
theorem claim_C4_baseline_example :
    baseline_loop Emulator.new example_program ∅ = BaselineResult.loopedAt ⟨5, 1⟩ ∧
    visit_trace Emulator.new example_program ∅ = [0, 1, 2, 6, 7, 3, 4, 1] := by
  constructor
  · simp [baseline_loop_eq, example_program, Emulator.execute, Emulator.new]
  · simp [visit_trace_eq, example_program, Emulator.execute, Emulator.new]

/-- Counterexample to claim C5 as stated: the baseline driver of `main`
cannot report `Terminated` at all — on the program `[acc+1]`, whose
program counter advances past the last instruction index (pc 1 ≥ length
1), the driver panics on the out-of-range index `instructions[1]` instead
of reporting anything. -/
theorem claim_C5_counterexample :
    baseline_loop Emulator.new [Instruction.accumulate 1] ∅
      = BaselineResult.outOfBounds ⟨1, 1⟩ ∧
    [Instruction.accumulate 1].length ≤ (⟨1, 1⟩ : Emulator).pc := by
  constructor
  · simp [baseline_loop_eq, Emulator.execute, Emulator.new]
  · simp

/-- Claim C5, amended: it is `run_program` (for any budget and visited
set), not the baseline while-loop of `main`, that reports `Terminated`
with the final emulator state as soon as the program counter is past the
last instruction index (and not already in the visited set); `main`'s
baseline loop instead fails with an out-of-range index. -/
theorem claim_C5_amended (p : List Instruction) (b : Int) (hit : Finset ℕ)
    (e : Emulator) (hpast : p.length ≤ e.pc) (hmem : e.pc ∉ hit) :
    run_program e p b hit = some (TerminationCriteria.terminated e) :=
  run_program_term hmem (List.getElem?_eq_none hpast)

/-- Witness for the amended claim C5 at a concrete input. -/
theorem claim_C5_witness :
    run_program Emulator.new [] 0 ∅ = some (TerminationCriteria.terminated Emulator.new) :=
  claim_C5_amended [] 0 ∅ Emulator.new (Nat.zero_le _) (Finset.not_mem_empty _)

/-- Claim C6: `Instruction::from_str` fails exactly when the line's first
whitespace-separated token is not one of the case-sensitive mnemonics
`nop`, `acc`, `jmp`, or no argument follows the mnemonic, or the argument
does not parse as a signed 64-bit integer; and the four example lines
decode as claimed while `"bogus +1"` fails. -/
theorem claim_C6_from_str :
    (∀ s : String, Instruction.from_str s = none ↔
      (((splitn2_whitespace s.toList).1 ≠ "nop".toList ∧
        (splitn2_whitespace s.toList).1 ≠ "acc".toList ∧
        (splitn2_whitespace s.toList).1 ≠ "jmp".toList) ∨
       (splitn2_whitespace s.toList).2 = none ∨
       (∃ a, (splitn2_whitespace s.toList).2 = some a ∧ parse_i64 a = none))) ∧
    Instruction.from_str "nop +0" = some (Instruction.noOperation 0) ∧
    Instruction.from_str "acc +1" = some (Instruction.accumulate 1) ∧
    Instruction.from_str "acc -99" = some (Instruction.accumulate (-99)) ∧
    Instruction.from_str "jmp -4" = some (Instruction.jump (-4)) ∧
    Instruction.from_str "bogus +1" = none := by
  refine ⟨?_, by decide, by decide, by decide, by decide, by decide⟩
  intro s
  rcases hsp : splitn2_whitespace s.toList with ⟨op, arg⟩
  simp only [Instruction.from_str, hsp]
  cases arg with
  | none => simp
  | some a =>
    show (if op = "nop".toList then Option.map Instruction.noOperation (parse_i64 a)
      else if op = "acc".toList then Option.map Instruction.accumulate (parse_i64 a)
      else if op = "jmp".toList then Option.map Instruction.jump (parse_i64 a)
      else none) = none ↔ _
    by_cases h1 : op = "nop".toList
    · cases hp : parse_i64 a <;> simp [h1, hp]
    · by_cases h2 : op = "acc".toList
      · cases hp : parse_i64 a <;> simp [h1, h2, hp]
      · by_cases h3 : op = "jmp".toList
        · cases hp : parse_i64 a <;> simp [h1, h2, h3, hp]
        · rw [if_neg h1, if_neg h2, if_neg h3]
          exact ⟨fun _ => Or.inl ⟨h1, h2, h3⟩, fun _ => rfl⟩

/-- Claim C7: `try_mutate` swaps `NoOperation(v)` and `Jump(v)`, preserving
the argument, maps `Accumulate` to `None`, and the swap is an involution on
the mutable instructions. -/
theorem claim_C7_try_mutate_partner :
    (∀ v : Int, Instruction.try_mutate (Instruction.noOperation v)
        = some (Instruction.jump v) ∧
      Instruction.try_mutate (Instruction.jump v) = some (Instruction.noOperation v)) ∧
    (∀ v : Int, Instruction.try_mutate (Instruction.accumulate v) = none) ∧
    (∀ i j : Instruction, Instruction.try_mutate i = some j →
      Instruction.try_mutate j = some i) := by
  refine ⟨fun v => ⟨rfl, rfl⟩, fun v => rfl, ?_⟩
  intro i j hij
  cases i with
  | noOperation v =>
    injection hij with h
    subst h
    rfl
  | accumulate v => cases hij
  | jump v =>
    injection hij with h
    subst h
    rfl

/-- Witness for claim C7 at a concrete input. -/
theorem claim_C7_witness :
    Instruction.try_mutate (Instruction.jump 3) = some (Instruction.noOperation 3) :=
  claim_C7_try_mutate_partner.2.2 (Instruction.noOperation 3) (Instruction.jump 3) rfl

/-- Claim C8: along every single path explored by `run_program` —
speculative or not, for any starting emulator, budget, and visited set —
revisit detection bounds the number of executed instructions by the
program length.  (`run_program` itself is a total function of its
arguments: its recursion is well-founded on exactly this bound.) -/
theorem claim_C8_path_bound (e : Emulator) (p : List Instruction) (b : Int)
    (hit : Finset ℕ) : search_path_bound e p b hit ≤ p.length := by
  have h := search_path_bound_le_measure (pcMeasure p hit) p e b hit rfl
  have h2 : pcMeasure p hit ≤ p.length := Nat.sub_le _ _
  omega

/-- Claim C9: the baseline driver is deterministic — two runs of `main`'s
baseline loop from a fresh emulator and a fresh visited set on the same
program produce identical results; no state is carried between runs. -/
theorem claim_C9_baseline_deterministic (instructions : List Instruction) :
    (run_baseline_twice instructions).1 = (run_baseline_twice instructions).2 := rfl

/-- Claim C10: whenever `run_program` returns `Terminated(emulator)`, the
returned emulator's program counter is at or past the program length. -/
theorem claim_C10_terminated_past_end (e : Emulator) (p : List Instruction) (b : Int)
    (hit : Finset ℕ) (e3 : Emulator)
    (h : run_program e p b hit = some (TerminationCriteria.terminated e3)) :
    p.length ≤ e3.pc :=
  run_program_terminated_pc (pcMeasure p hit) p e b hit e3 rfl h

/-- Witness for claim C10 at a concrete input. -/
theorem claim_C10_witness : ([] : List Instruction).length ≤ Emulator.new.pc :=
  claim_C10_terminated_past_end Emulator.new [] 0 ∅ Emulator.new
    (run_program_term (Finset.not_mem_empty _) rfl)
